import Mathlib

/-!
Verification of the MEIO_DDP simulation engine against its specification.

The Python engine (engine/node.py, engine/simulator.py, engine/network.py,
engine/transport.py, policies/) is shallowly embedded: Python ints are `ℤ`,
Python floats in the transport planner are exact rationals `ℚ`, dicts are
association lists (insertion-ordered, like Python dicts), mutable objects
become explicit state passing, and `raise` becomes `Except`/`Option` errors.
-/

/-! ### Association-list helpers (Python `dict` semantics) -/

/-- `d.get(k)`: first (unique) binding of `k`, if present. -/
def alistGet {α : Type} (l : List (String × α)) (k : String) : Option α :=
  (l.find? (fun q => q.1 == k)).map (·.2)

/-- `d.get(k, 0)` for integer-valued dicts. -/
def alistGetD (l : List (String × ℤ)) (k : String) : ℤ :=
  (alistGet l k).getD 0

/-- `d[k] = v`: update in place if the key exists (keeping its position),
otherwise append the new binding at the end, as Python dicts do. -/
def alistSet {α : Type} (l : List (String × α)) (k : String) (v : α) : List (String × α) :=
  if l.any (fun q => q.1 == k) then
    l.map (fun q => if q.1 == k then (k, v) else q)
  else l ++ [(k, v)]

/-- `del d[k]`. -/
def alistDel {α : Type} (l : List (String × α)) (k : String) : List (String × α) :=
  l.filter (fun q => !(q.1 == k))

/-- `k in d`. -/
def alistHas {α : Type} (l : List (String × α)) (k : String) : Bool :=
  l.any (fun q => q.1 == k)

/-! ### engine/node.py: data model -/

/-- `Shipment(arrival_time, qty)` (engine/node.py). -/
structure Shipment where
  arrival_time : ℤ
  qty : ℤ
deriving DecidableEq, Repr

/-- The mutable state of one `Node` (engine/node.py).  The `policy` object is
kept outside the state (the simulator embedding receives each node's
`order_qty` as a function), and `node_id` is the key under which the state is
stored, so neither is a field here. -/
structure NodeState where
  node_type : String
  infinite_supply : Bool
  on_hand : ℤ
  backlog_external : ℤ
  backlog_children : List (String × ℤ)
  pipeline_in : List Shipment
  inbound_orders_queue : List (String × ℤ)
deriving DecidableEq, Repr

/-- `Node.total_pipeline_in`. -/
def totalPipelineIn (n : NodeState) : ℤ :=
  (n.pipeline_in.map (·.qty)).sum

/-- `Node.total_backlog_children`. -/
def totalBacklogChildren (n : NodeState) : ℤ :=
  (n.backlog_children.map (·.2)).sum

/-- `Node.receive_shipments(t)`: one pass over the pipeline accumulating the
arrived quantity and the entries to keep, then move the arrived amount into
`on_hand`.  Returns the updated node and the arrived amount. -/
def receiveShipments (t : ℤ) (n : NodeState) : NodeState × ℤ :=
  let r := n.pipeline_in.foldl
    (fun (acc : ℤ × List Shipment) s =>
      if s.arrival_time = t then (acc.1 + s.qty, acc.2) else (acc.1, acc.2 ++ [s]))
    (0, [])
  ({ n with pipeline_in := r.2, on_hand := n.on_hand + r.1 }, r.1)

/-- `Node.process_external_demand(qty)`: clip negative demand to 0, fulfill
`min(on_hand, qty)`, backlog the remainder.  Returns (node, fulfilled, unfilled). -/
def processExternalDemand (demand_qty : ℤ) (n : NodeState) : NodeState × ℤ × ℤ :=
  let d := max 0 demand_qty
  let fulfilled := min n.on_hand d
  let unfilled := d - fulfilled
  ({ n with
      on_hand := n.on_hand - fulfilled,
      backlog_external :=
        if 0 < unfilled then n.backlog_external + unfilled else n.backlog_external },
   fulfilled, unfilled)

/-- The whole network's node states, keyed by node id (the contents of
`network.nodes`, which the simulator mutates in place). -/
def SimState : Type := String → NodeState

/-- `Node.add_inbound_order(child_id, qty)`. -/
def addInboundOrder (p child : String) (qty : ℤ) (s : SimState) : SimState :=
  Function.update s p
    { s p with inbound_orders_queue := (s p).inbound_orders_queue ++ [(child, qty)] }

/-- One iteration of the `for child in children` loop of
`Node.process_child_orders` (engine/node.py:90-115) for parent `p` and child
`c`: compute `need`, ship `min(on_hand, need)` (the full `need` if
`infinite_supply`), decrement `on_hand` (unless infinite supply), append a
`Shipment` with `arrival_time = t + max(1, L)` to the child's pipeline, and
update/clear the per-child backlog.  The accumulator carries the network state
and the list of (child, Shipment) pairs appended so far (whose quantities are
the returned `shipped` dict). -/
def serveChild (t : ℤ) (p c : String) (incoming : List (String × ℤ)) (lt : String → ℤ)
    (acc : SimState × List (String × Shipment)) : SimState × List (String × Shipment) :=
  let s := acc.1
  let pn := s p
  let need := alistGetD pn.backlog_children c + alistGetD incoming c
  if need ≤ 0 then acc
  else
    let ship := if pn.infinite_supply then need else min pn.on_hand need
    let step :=
      if 0 < ship then
        let s' := if pn.infinite_supply then s
                  else Function.update s p { pn with on_hand := pn.on_hand - ship }
        let L := lt c
        let sh : Shipment := ⟨t + max 1 L, ship⟩
        let cn := s' c
        (Function.update s' c { cn with pipeline_in := cn.pipeline_in ++ [sh] },
         acc.2 ++ [(c, sh)])
      else (s, acc.2)
    let s₁ := step.1
    let pn₁ := s₁ p
    let remaining := need - ship
    let s₂ :=
      if 0 < remaining then
        Function.update s₁ p
          { pn₁ with backlog_children := alistSet pn₁.backlog_children c remaining }
      else if alistHas pn₁.backlog_children c then
        Function.update s₁ p
          { pn₁ with backlog_children := alistDel pn₁.backlog_children c }
      else s₁
    (s₂, step.2)

/-- `Node.process_child_orders(t, child_nodes, lead_time_sampler_by_child)`:
merge the queued incoming orders per child, clear the queue, and serve the
union of the children that might need serving.  Python iterates that union as
a `set` (unspecified order); we fix the enumeration `child_nodes keys ++
backlog keys ++ incoming keys (deduplicated)` — every property proved below is
independent of the enumeration order.  `lt c` is the value returned by
`lead_time_sampler_by_child[c]()` (called at most once per child here).
Returns the new network state and the appended (child, Shipment) pairs; the
Python return value `shipped` is `fun r => r.map (fun q => (q.1, q.2.qty))` of
the second component. -/
def processChildOrders (t : ℤ) (p : String) (childKeys : List String)
    (lt : String → ℤ) (s : SimState) : SimState × List (String × Shipment) :=
  let pn := s p
  let incoming := pn.inbound_orders_queue.foldl
    (fun acc o => alistSet acc o.1 (alistGetD acc o.1 + o.2)) []
  let s₀ := Function.update s p { pn with inbound_orders_queue := [] }
  let childrenList :=
    (childKeys ++ pn.backlog_children.map (·.1) ++ incoming.map (·.1)).dedup
  childrenList.foldl (fun acc c => serveChild t p c incoming lt acc) (s₀, [])

/-! ### policies/ : the policy variants -/

/-- `OrderUpToPolicy.order_qty` (policies/order_up_to.py): review is due when
`t` is `None` (older simulator, "behave like base stock") or when
`(t - phase_offset) % R == 0`; if not due return 0, else return
`max(0, S - ip)` with `ip = on_hand - (backlog_external + backlog_children) +
pipeline_in`. -/
def orderUpToOrderQty (R S phase_offset : ℤ)
    (on_hand backlog_external backlog_children pipeline_in : ℤ)
    (t : Option ℤ) : ℤ :=
  let review_due :=
    match t with
    | none => true
    | some t => decide ((t - phase_offset) % R = 0)
  if review_due then
    max 0 (S - (on_hand - (backlog_external + backlog_children) + pipeline_in))
  else 0

/-- `BaseStockPolicy.decide_order(current_inventory)` (policies/base_stock.py). -/
def baseStockDecideOrder (base_stock_level current_inventory : ℤ) : ℤ :=
  max 0 (base_stock_level - current_inventory)

/-- `SsPolicy.decide_order(current_inventory)` (policies/ss_policy.py):
order `S - current_inventory` when `current_inventory < s` (strict, per the
code and its docstring), else 0. -/
def ssDecideOrder (s S current_inventory : ℤ) : ℤ :=
  if current_inventory < s then S - current_inventory else 0

/-- The closed set of policy objects the configuration builder
(scripts/run_simulation.py `build_from_config` and
inputs/scripts/build_config_from_csv.py) can attach to a node.
`AdaptivePolicy`'s constructor arguments are its cover horizon and buffer. -/
inductive PolicyObj where
  | baseStock (base_stock_level : ℤ)
  | ssPol (s S : ℤ)
  | orderUpTo (R S phase_offset : ℤ)
  | adaptive (cover_horizon : ℤ) (buffer : ℚ)
deriving DecidableEq, Repr

/-- Attribute lookup + call of `policy.order_qty(on_hand=..., backlog_external=...,
backlog_children=..., pipeline_in=...)` exactly as `Simulator.run` performs it
(engine/simulator.py:106-111, note: no `t` keyword is passed).  Only
`OrderUpToPolicy` defines an `order_qty` method (with `t` defaulting to
`None`); `BaseStockPolicy`, `SsPolicy` and `AdaptivePolicy` define only
`decide_order`, so the attribute lookup fails (Python `AttributeError`),
modelled as `none`. -/
def callOrderQty (p : PolicyObj) (on_hand backlog_external backlog_children pipeline_in : ℤ) :
    Option ℤ :=
  match p with
  | .orderUpTo R S phase_offset =>
      some (orderUpToOrderQty R S phase_offset
              on_hand backlog_external backlog_children pipeline_in none)
  | _ => none

/-! ### engine/transport.py: TransportPlanner -/

/-- `TransportOption` (engine/transport.py). -/
structure TransportOption where
  route_id : String
  mode : ℤ
  capacity : ℚ
  cost_full : ℚ
  cost_half : ℚ
  cost_quarter : ℚ
  lead_time : ℤ
deriving DecidableEq, Repr

/-- `PlannedShipment` (engine/transport.py). -/
structure PlannedShipment where
  qty : ℚ
  mode : ℤ
  cost : ℚ
  lead_time : ℤ
  utilization : ℚ
deriving DecidableEq, Repr

/-- `TransportPlanner.MIN_UTIL = 0.25`. -/
def minUtil : ℚ := 0.25

/-- The `while remaining >= C` loop of `_plan_single_option`: emit one
full-capacity shipment per loop turn.  Returns (number of full shipments,
remaining volume).  The loop only runs with `0 < C` (a non-positive capacity
raised before the loop), which the guard records to make termination
well-founded. -/
def fullLoop (C rem : ℚ) : ℕ × ℚ :=
  if h : 0 < C ∧ C ≤ rem then
    let r := fullLoop C (rem - C)
    (r.1 + 1, r.2)
  else (0, rem)
termination_by (⌊rem / C⌋).toNat
decreasing_by
  obtain ⟨hC, hCr⟩ := h
  have hne : C ≠ 0 := ne_of_gt hC
  have h1 : (rem - C) / C = rem / C - 1 := by
    rw [sub_div, div_self hne]
  have h2 : ⌊rem / C - 1⌋ = ⌊rem / C⌋ - 1 := by
    have := Int.floor_sub_int (rem / C) 1
    simp at this
    simp [this]
  have h3 : (1 : ℚ) ≤ rem / C := (one_le_div hC).mpr hCr
  have h4 : (1 : ℤ) ≤ ⌊rem / C⌋ := by
    exact_mod_cast Int.le_floor.mpr (by exact_mod_cast h3)
  rw [h1, h2]
  omega

theorem fullLoop_pos {C rem : ℚ} (hC : 0 < C) (h : C ≤ rem) :
    fullLoop C rem = ((fullLoop C (rem - C)).1 + 1, (fullLoop C (rem - C)).2) := by
  rw [fullLoop.eq_def]
  simp [hC, h]

theorem fullLoop_neg {C rem : ℚ} (h : ¬(0 < C ∧ C ≤ rem)) :
    fullLoop C rem = (0, rem) := by
  rw [fullLoop.eq_def]
  simp [h]

/-- `_plan_single_option(requested_volume, opt)`: raise on non-positive
capacity, return empty below minimum utilization, otherwise full loads plus a
tier-priced partial (dropping a remainder below the quarter tier). -/
def planSingleOption (requested_volume : ℚ) (opt : TransportOption) :
    Except String (List PlannedShipment) :=
  let C := opt.capacity
  if C ≤ 0 then .error "Invalid transport capacity"
  else if requested_volume < minUtil * C then .ok []
  else
    let r := fullLoop C requested_volume
    let fulls : List PlannedShipment :=
      List.replicate r.1 ⟨C, opt.mode, opt.cost_full, opt.lead_time, 1⟩
    let remaining := r.2
    if 0 < remaining then
      let util := remaining / C
      if 1 ≤ util then
        .ok (fulls ++ [⟨remaining, opt.mode, opt.cost_full, opt.lead_time, 1⟩])
      else if 1/2 ≤ util then
        .ok (fulls ++ [⟨remaining, opt.mode, opt.cost_half, opt.lead_time, 1/2⟩])
      else if 1/4 ≤ util then
        .ok (fulls ++ [⟨remaining, opt.mode, opt.cost_quarter, opt.lead_time, 1/4⟩])
      else .ok fulls
    else .ok fulls

/-- Stable insertion of an option into a mode-sorted list: `o` goes after
every element with a strictly smaller mode and before everything else, which
keeps the original order among equal modes (Python's `sorted` is stable). -/
def insertByMode (o : TransportOption) : List TransportOption → List TransportOption
  | [] => [o]
  | x :: xs => if x.mode < o.mode then x :: insertByMode o xs else o :: x :: xs

/-- `sorted(options, key=lambda x: x.mode)` as a stable insertion sort. -/
def sortByMode : List TransportOption → List TransportOption
  | [] => []
  | x :: xs => insertByMode x (sortByMode xs)

/-- The `for opt in options` loop of `TransportPlanner.plan`: try each option
in order, return the first non-empty plan, propagate a raised capacity error,
fall through to `[]` when every option defers. -/
def firstPlan (requested_volume : ℚ) : List TransportOption → Except String (List PlannedShipment)
  | [] => .ok []
  | o :: rest =>
    match planSingleOption requested_volume o with
    | .error e => .error e
    | .ok [] => firstPlan requested_volume rest
    | .ok (s :: ss) => .ok (s :: ss)

/-- `TransportPlanner.plan(requested_volume, options)`. -/
def planE (requested_volume : ℚ) (options : List TransportOption) :
    Except String (List PlannedShipment) :=
  if requested_volume ≤ 0 then .ok []
  else firstPlan requested_volume (sortByMode options)

/-! ### engine/network.py: Network construction -/

/-- `Edge` (engine/network.py).  The `lead_time_sampler` callable is omitted:
it is an opaque function irrelevant to the adjacency bookkeeping verified
here (the simulator embedding receives lead-time samples through an oracle).
`add_edge` does not set `transport_cost_per_unit`, so it stays at the
dataclass default `None`. -/
structure EdgeRec where
  parent : String
  child : String
  share : Option ℚ
  transport_cost_per_unit : Option ℚ
  route_id : Option String
  mode : ℤ
  capacity : ℚ
  cost_full : ℚ
  cost_half : ℚ
  cost_quarter : ℚ
deriving DecidableEq, Repr

/-- The `Network` dataclass fields touched by `add_edge`: the node registry
keys, the `(parent, child) -> [Edge]` map, and the cached `parents_of` /
`children_of` adjacency. -/
structure Net where
  nodes : List String
  edges : List ((String × String) × List EdgeRec)
  parents_of : List (String × String)
  children_of : List (String × List String)
deriving DecidableEq, Repr

/-- `self.edges.setdefault(key, []).append(e)`: append to the existing list at
`key`, or insert a fresh singleton binding at the end. -/
def edgesAppend (edges : List ((String × String) × List EdgeRec))
    (key : String × String) (e : EdgeRec) : List ((String × String) × List EdgeRec) :=
  if edges.any (fun q => q.1 == key) then
    edges.map (fun q => if q.1 == key then (q.1, q.2 ++ [e]) else q)
  else edges ++ [(key, [e])]

/-- `p in l` for a string list. -/
def strMem (l : List String) (x : String) : Bool :=
  l.any (fun y => y == x)

/-- `Network.add_edge(parent_id, child_id, ...)` (engine/network.py:52-89).
The edge is appended to `self.edges` FIRST; only then is single-sourcing
checked, and a violation raises (second component `some msg`) with
`parents_of` / `children_of` left untouched — but the appended edge stays in
the map, exactly as in the source.  The keyword defaults are `mode=1,
capacity=100.0, cost_full=100.0, cost_half=60.0, cost_quarter=35.0,
share=None, route_id=None`; callers pass them explicitly here. -/
def addEdge (net : Net) (parent_id child_id : String)
    (share : Option ℚ) (mode : ℤ) (capacity cost_full cost_half cost_quarter : ℚ)
    (route_id : Option String) : Net × Option String :=
  let e : EdgeRec :=
    ⟨parent_id, child_id, share, none, route_id, mode,
     capacity, cost_full, cost_half, cost_quarter⟩
  let net₁ := { net with edges := edgesAppend net.edges (parent_id, child_id) e }
  match alistGet net₁.parents_of child_id with
  | some p₀ =>
    if p₀ ≠ parent_id then
      (net₁, some "Child has multiple parents (single-sourcing enforced).")
    else
      let net₂ := { net₁ with parents_of := alistSet net₁.parents_of child_id parent_id }
      let cur := ((alistGet net₂.children_of parent_id).getD [])
      let cur' := if strMem cur child_id then cur else cur ++ [child_id]
      ({ net₂ with children_of := alistSet net₂.children_of parent_id cur' }, none)
  | none =>
    let net₂ := { net₁ with parents_of := alistSet net₁.parents_of child_id parent_id }
    let cur := ((alistGet net₂.children_of parent_id).getD [])
    let cur' := if strMem cur child_id then cur else cur ++ [child_id]
    ({ net₂ with children_of := alistSet net₂.children_of parent_id cur' }, none)

/-! ### engine/simulator.py: the periodic-review event loop -/

/-- `MetricsRow` (engine/simulator.py). -/
structure MetricsRow where
  t : ℤ
  node_id : String
  on_hand : ℤ
  backlog_external : ℤ
  backlog_children : ℤ
  pipeline_in : ℤ
  orders_to_parent : ℤ
  received : ℤ
  phase : String
deriving DecidableEq, Repr

/-- One entry of `orders_waiting`: an order placed by `child` at `parent`,
to be processed at period `due` (the Python dict `parent -> [(process_time,
child, qty)]` flattened, preserving insertion order). -/
structure OrderRec where
  parent : String
  due : ℤ
  child : String
  qty : ℤ
deriving DecidableEq, Repr

/-- The static inputs of `Simulator.run`, with every stochastic or dynamic
collaborator made explicit:
* `allIds`: `self.network.nodes` registry keys in insertion order;
* `topo`: the topological order `self._topological_order()` computes;
* `childrenOf` / `parentOf`: the cached adjacency queries;
* `policy id oh bl blc pi`: the value of `node.policy.order_qty(on_hand=oh,
  backlog_external=bl, backlog_children=blc, pipeline_in=pi)` — the exact
  call the replenishment phase makes (no `t` argument is passed);
* `demand id t`: the demand sample (0 for nodes with no generator);
* `ltOracle t p c`: the lead time `lead_time_sampler_by_child(p)[c]()` drawn
  when parent `p` ships to child `c` at period `t` (at most one draw per
  (t, p, c));
* `opd`: `order_processing_delay`. -/
structure SimCfg where
  allIds : List String
  topo : List String
  childrenOf : String → List String
  parentOf : String → Option String
  policy : String → ℤ → ℤ → ℤ → ℤ → ℤ
  demand : String → ℤ → ℤ
  ltOracle : ℤ → String → String → ℤ
  opd : ℤ

/-- Phase 1 (arrivals): every node in topological order pulls due pipeline
entries into `on_hand`; `received_today` starts at 0 for every node and
records each node's arrived amount. -/
def arrivalsPhase (topo : List String) (t : ℤ) (s : SimState) :
    SimState × List (String × ℤ) :=
  topo.foldl
    (fun (acc : SimState × List (String × ℤ)) nid =>
      let r := receiveShipments t (acc.1 nid)
      (Function.update acc.1 nid r.1, alistSet acc.2 nid r.2))
    (s, [])

/-- Phase 1a (backlog clearing): any retailer with positive external backlog
and positive on-hand serves `min(on_hand, backlog_external)` of the owed
demand before new demand is considered. -/
def backlogClearPhase (topo : List String) (s : SimState) : SimState :=
  topo.foldl
    (fun s nid =>
      let n := s nid
      if n.node_type = "retailer" ∧ 0 < n.backlog_external ∧ 0 < n.on_hand then
        let served := min n.on_hand n.backlog_external
        Function.update s nid
          { n with on_hand := n.on_hand - served,
                   backlog_external := n.backlog_external - served }
      else s)
    s

/-- Phase 2 (external demand): every retailer samples today's demand and runs
`process_external_demand` (nodes without a generator get 0). -/
def demandPhase (dem : String → ℤ → ℤ) (t : ℤ) (topo : List String) (s : SimState) :
    SimState :=
  topo.foldl
    (fun s nid =>
      let n := s nid
      if n.node_type = "retailer" then
        Function.update s nid (processExternalDemand (dem nid t) n).1
      else s)
    s

/-- Phase 3, per parent: enqueue today's due child orders at the parent, then
let the parent serve its children. -/
def processParent (cfg : SimCfg) (t : ℤ) (p : String) (items : List OrderRec)
    (s : SimState) : SimState :=
  let s₁ := items.foldl (fun s it => addInboundOrder p it.child it.qty s) s
  (processChildOrders t p (cfg.childrenOf p) (fun c => cfg.ltOracle t p c) s₁).1

/-- Phase 3 (due-order fulfillment): split `orders_waiting` into the orders
due at `t` and the rest, then process each parent with due orders, in order of
first appearance (Python dict insertion order). -/
def duePhase (cfg : SimCfg) (t : ℤ) (s : SimState) (w : List OrderRec) :
    SimState × List OrderRec :=
  let dueList := w.filter (fun o => o.due == t)
  let w' := w.filter (fun o => !(o.due == t))
  let parents := (dueList.map (·.parent)).dedup
  (parents.foldl
    (fun s p => processParent cfg t p (dueList.filter (fun o => o.parent == p)) s) s,
   w')

/-- Phase 4 (replenishment ordering): every node with a parent asks its policy
for an order quantity given its current signals; positive quantities are
scheduled to be processed at `t + order_processing_delay`; `orders_today`
records the quantity (even 0). -/
def ordersPhase (cfg : SimCfg) (t : ℤ) (topo : List String) (s : SimState)
    (w : List OrderRec) : List OrderRec × List (String × ℤ) :=
  topo.foldl
    (fun (acc : List OrderRec × List (String × ℤ)) nid =>
      match cfg.parentOf nid with
      | none => acc
      | some pid =>
        let n := s nid
        let q := cfg.policy nid n.on_hand n.backlog_external
                   (totalBacklogChildren n) (totalPipelineIn n)
        (if 0 < q then acc.1 ++ [⟨pid, t + cfg.opd, nid, q⟩] else acc.1,
         alistSet acc.2 nid q))
    (w, [])

/-- Phase 5 (snapshot): one end-of-day `MetricsRow` per node in topological
order. -/
def snapshotPhase (t : ℤ) (topo : List String) (s : SimState)
    (recvd orders : List (String × ℤ)) : List MetricsRow :=
  topo.map (fun nid =>
    ⟨t, nid, (s nid).on_hand, (s nid).backlog_external,
     totalBacklogChildren (s nid), totalPipelineIn (s nid),
     alistGetD orders nid, alistGetD recvd nid, "EOD"⟩)

/-- The end-of-period safety assertion: every non-infinite-supply node has
non-negative on-hand (`assert node.on_hand >= 0`). -/
def assertCheck (cfg : SimCfg) (s : SimState) : Bool :=
  cfg.allIds.all (fun nid => (s nid).infinite_supply || decide (0 ≤ (s nid).on_hand))

/-- One period `t` of `Simulator.run` in summary mode: returns the state and
`orders_waiting` after the period, the appended metrics rows, and whether the
end-of-period assertion holds. -/
def stepPeriod (cfg : SimCfg) (t : ℤ) (sw : SimState × List OrderRec) :
    SimState × List OrderRec × List MetricsRow × Bool :=
  let a := arrivalsPhase cfg.topo t sw.1
  let s1a := backlogClearPhase cfg.topo a.1
  let s2 := demandPhase cfg.demand t cfg.topo s1a
  let d := duePhase cfg t s2 sw.2
  let o := ordersPhase cfg t cfg.topo d.1 d.2
  let rows := snapshotPhase t cfg.topo d.1 a.2 o.2
  (d.1, o.1, rows, assertCheck cfg d.1)

/-- The (state, orders_waiting) pair after `k` full periods, starting from
state `s₀` and empty `orders_waiting` (assertions ignored). -/
def stateAfter (cfg : SimCfg) (s₀ : SimState) : ℕ → SimState × List OrderRec
  | 0 => (s₀, [])
  | k + 1 =>
    let sw := stateAfter cfg s₀ k
    let r := stepPeriod cfg (k : ℤ) sw
    (r.1, r.2.1)

/-- The remaining `k` periods of the loop starting at period `t`: metrics of
every period, or the text of the first failed assertion. -/
def runFrom (cfg : SimCfg) (sw : SimState × List OrderRec) (t : ℤ) :
    ℕ → Except String (List MetricsRow)
  | 0 => .ok []
  | k + 1 =>
    let r := stepPeriod cfg t sw
    if r.2.2.2 then
      match runFrom cfg (r.1, r.2.1) (t + 1) k with
      | .ok rest => .ok (r.2.2.1 ++ rest)
      | .error e => .error e
    else .error "Negative stock"

/-- `Simulator.run(mode="summary")` over horizon `T`. -/
def runSim (cfg : SimCfg) (s₀ : SimState) (T : ℕ) : Except String (List MetricsRow) :=
  runFrom cfg (s₀, []) 0 T

/-- The `orders_to_parent` recorded for node `nid` at period `t`, if the run
succeeded and such a row exists. -/
def ordersToParentAt (res : Except String (List MetricsRow)) (t : ℤ) (nid : String) :
    Option ℤ :=
  match res with
  | .error _ => none
  | .ok rows => (rows.find? (fun r => r.t == t && r.node_id == nid)).map (·.orders_to_parent)

/-! ### Claims C1, C2: the replenishment phase's policy call -/

/-- Initial node states of a two-node network: infinite-supply supplier `P`
and retailer `R` with 5 units on hand (all other ids map to an inert node). -/
def c1Init : SimState := fun id =>
  if id = "P" then ⟨"supplier", true, 0, 0, [], [], []⟩
  else if id = "R" then ⟨"retailer", false, 5, 0, [], [], []⟩
  else ⟨"", false, 0, 0, [], [], []⟩

/-- Configuration of that network: edge `P → R` with deterministic lead time
1, deterministic demand 3 per period at `R`, order processing delay 1, and `R`
governed by `OrderUpToPolicy(R=2, S=10, phase_offset=0)` — whose `order_qty`
the replenishment phase invokes exactly as `Simulator.run` does, i.e. without
passing `t`. -/
def c1Cfg : SimCfg where
  allIds := ["P", "R"]
  topo := ["P", "R"]
  childrenOf := fun id => if id = "P" then ["R"] else []
  parentOf := fun id => if id = "R" then some "P" else none
  policy := fun _ oh bl blc pi => orderUpToOrderQty 2 10 0 oh bl blc pi none
  demand := fun id _ => if id = "R" then 3 else 0
  ltOracle := fun _ _ _ => 1
  opd := 1

/-- C1: the claim says a periodic-review order-up-to node with review period
`R = 2` and phase offset 0 records `orders_to_parent = 0` at every period `t`
with `t mod R ≠ 0`.  The code violates this: `Simulator.run` calls
`policy.order_qty(...)` without the `t` keyword, so `OrderUpToPolicy` receives
`t = None` and treats every period as a review period.  In the concrete run
above, period `t = 1` (a non-review period, `1 % 2 ≠ 0`) records
`orders_to_parent = 3`, although the policy itself, had `t = 1` been passed,
would have returned 0 on the same signals (`on_hand = 0`,
`backlog_external = 1`, `backlog_children = 0`, `pipeline_in = 8`). -/
theorem claim_C1 :
    ordersToParentAt (runSim c1Cfg c1Init 2) 1 "R" = some 3 ∧
    (1 : ℤ) % 2 ≠ 0 ∧
    orderUpToOrderQty 2 10 0 0 1 0 8 (some 1) = 0 := by
  exact ⟨by rfl, by decide, by rfl⟩

/-- C2: the claim says that for every policy variant the configuration builder
can produce, the simulator's replenishment phase can invoke the policy through
the single `order_qty` capability and the call is defined.  The code violates
this: only `OrderUpToPolicy` defines `order_qty`; `BaseStockPolicy`, `SsPolicy`
and `AdaptivePolicy` define only `decide_order`, so the attribute access
`policy.order_qty` raises `AttributeError` (modelled as `none`) for those
variants. -/
theorem claim_C2 :
    callOrderQty (.baseStock 10) 5 0 0 0 = none ∧
    callOrderQty (.ssPol 5 10) 5 0 0 0 = none ∧
    callOrderQty (.adaptive 3 (1/5)) 5 0 0 0 = none ∧
    callOrderQty (.orderUpTo 2 10 0) 5 0 0 0 = some 5 := by
  exact ⟨rfl, rfl, rfl, rfl⟩

/-! ### Claim C7: the (s, S) ordering decision -/

/-- C7 counterexample: the claim says that with `s = 5 ≤ S = 10` and inventory
position `ip = 5` (the boundary `ip = s`) the decision is `S − s = 5`; the code
(`if current_inventory < self.s`, strict) returns 0 there. -/
theorem claim_C7_counterexample :
    ssDecideOrder 5 10 5 = 0 ∧ (0 : ℤ) ≠ 10 - 5 := by
  exact ⟨rfl, by decide⟩

/-- C7 (amended): for every `(s, S)` policy with `s ≤ S` and every inventory
position `ip`, `SsPolicy.decide_order` returns `S − ip` exactly when `ip < s`
(strictly below the reorder point), and 0 otherwise; in particular at the
boundary `ip = s` the order is 0. -/
theorem claim_C7 (s S ip : ℤ) (hsS : s ≤ S) :
    (ip < s → ssDecideOrder s S ip = S - ip) ∧
    (s ≤ ip → ssDecideOrder s S ip = 0) ∧
    (ip = s → ssDecideOrder s S ip = 0) := by
  unfold ssDecideOrder
  refine ⟨fun h => by simp [h], fun h => by simp [not_lt.mpr h], fun h => by simp [h]⟩

/-- C7 witness: the amended theorem at `s = 5 ≤ S = 10`, `ip = 3 < s`. -/
theorem claim_C7_witness : (5 : ℤ) ≤ 10 ∧ ssDecideOrder 5 10 3 = 10 - 3 :=
  ⟨by decide, (claim_C7 5 10 3 (by decide)).1 (by decide)⟩

/-! ### Claim C5: add_edge under a single-sourcing violation -/

/-- A network in which child `c` is already sourced from parent `p`
(nodes `p`, `c`, `p2`; one `p → c` edge with the `add_edge` defaults). -/
def c5Net : Net where
  nodes := ["p", "c", "p2"]
  edges := [(("p", "c"), [⟨"p", "c", none, none, none, 1, 100, 100, 60, 35⟩])]
  parents_of := [("c", "p")]
  children_of := [("p", ["c"])]

/-- C5 counterexample: the claim says that after the failed
`add_edge("p2", "c")` call the network's state — its edge map included — is
unchanged.  The call does fail, and `parents_of`/`children_of` are unchanged,
but the new edge was appended to the edge map before the single-sourcing check,
so the edge map (and hence the network) differs from before the call. -/
theorem claim_C5_counterexample :
    ((addEdge c5Net "p2" "c" none 1 100 100 60 35 none).2.isSome = true) ∧
    (addEdge c5Net "p2" "c" none 1 100 100 60 35 none).1.edges ≠ c5Net.edges := by
  exact ⟨by rfl, by decide⟩

/-- C5 (amended): for every network in which child `c` already has registered
parent `p₀`, calling `add_edge(p, c, ...)` with `p ≠ p₀` fails
deterministically (raises the single-sourcing `ValueError`), and after the
failed call the cached `parents_of`/`children_of` adjacency (and the node
registry) are unchanged — but the edge map has already received the appended
edge, because `add_edge` appends before it checks. -/
theorem claim_C5 (net : Net) (p c p₀ : String) (share : Option ℚ) (mode : ℤ)
    (cap cf ch cq : ℚ) (rid : Option String)
    (hreg : alistGet net.parents_of c = some p₀) (hne : p₀ ≠ p) :
    (addEdge net p c share mode cap cf ch cq rid).2 =
      some "Child has multiple parents (single-sourcing enforced)." ∧
    (addEdge net p c share mode cap cf ch cq rid).1.parents_of = net.parents_of ∧
    (addEdge net p c share mode cap cf ch cq rid).1.children_of = net.children_of ∧
    (addEdge net p c share mode cap cf ch cq rid).1.nodes = net.nodes ∧
    (addEdge net p c share mode cap cf ch cq rid).1.edges =
      edgesAppend net.edges (p, c) ⟨p, c, share, none, rid, mode, cap, cf, ch, cq⟩ := by
  unfold addEdge
  simp [hreg, if_pos hne]

/-- C5 witness: the amended theorem at the concrete network `c5Net`. -/
theorem claim_C5_witness :
    alistGet c5Net.parents_of "c" = some "p" ∧ "p" ≠ "p2" ∧
    (addEdge c5Net "p2" "c" none 1 100 100 60 35 none).1.parents_of = c5Net.parents_of :=
  ⟨by rfl, by decide,
   (claim_C5 c5Net "p2" "c" "p" none 1 100 100 60 35 none (by rfl) (by decide)).2.1⟩

/-! ### Transport planner lemmas -/

theorem fullLoop_invariant {C : ℚ} (hC : 0 < C) :
    ∀ (n : ℕ) (rem : ℚ), ⌊rem / C⌋.toNat = n →
      (fullLoop C rem).2 = rem - ((fullLoop C rem).1 : ℚ) * C ∧
      (fullLoop C rem).2 < C ∧
      (0 ≤ rem → 0 ≤ (fullLoop C rem).2) := by
  intro n
  induction n using Nat.strong_induction_on with
  | _ n ih =>
    intro rem hn
    by_cases h : C ≤ rem
    · have hne : C ≠ 0 := ne_of_gt hC
      have h1 : (rem - C) / C = rem / C - 1 := by rw [sub_div, div_self hne]
      have h2 : ⌊rem / C - 1⌋ = ⌊rem / C⌋ - 1 := by
        have := Int.floor_sub_int (rem / C) 1
        simp at this
        simp [this]
      have h3 : (1 : ℚ) ≤ rem / C := (one_le_div hC).mpr h
      have h4 : (1 : ℤ) ≤ ⌊rem / C⌋ := by
        exact_mod_cast Int.le_floor.mpr (by exact_mod_cast h3)
      have hdec : ⌊(rem - C) / C⌋.toNat < n := by
        rw [h1, h2, ← hn]
        omega
      obtain ⟨ih1, ih2, ih3⟩ := ih _ hdec (rem - C) rfl
      rw [fullLoop_pos hC h]
      refine ⟨?_, ih2, fun _ => ih3 (by linarith)⟩
      push_cast
      rw [ih1]
      ring
    · rw [fullLoop_neg (by tauto)]
      exact ⟨by simp, by simpa using lt_of_not_le h, fun hr => hr⟩

theorem fullLoop_props {C : ℚ} (hC : 0 < C) (rem : ℚ) :
    (fullLoop C rem).2 = rem - ((fullLoop C rem).1 : ℚ) * C ∧
    (fullLoop C rem).2 < C ∧
    (0 ≤ rem → 0 ≤ (fullLoop C rem).2) :=
  fullLoop_invariant hC _ rem rfl

theorem planSingleOption_spec {v : ℚ} {o : TransportOption} {ms : List PlannedShipment}
    (hC : 0 < o.capacity) (hv : 0 < v)
    (h : planSingleOption v o = .ok ms) :
    ms = [] ∨
      ((∀ s ∈ ms, s.mode = o.mode ∧ s.qty ≤ o.capacity) ∧
       (ms.map (·.qty)).sum ≤ v ∧
       v - (ms.map (·.qty)).sum < minUtil * o.capacity) := by
  obtain ⟨h1, h2, h3⟩ := fullLoop_props hC v
  have h3' : 0 ≤ (fullLoop o.capacity v).2 := h3 (le_of_lt hv)
  unfold planSingleOption at h
  rw [if_neg (not_le.mpr hC)] at h
  by_cases hmin : v < minUtil * o.capacity
  · rw [if_pos hmin] at h
    left
    exact (Except.ok.inj h).symm
  rw [if_neg hmin] at h
  set k := (fullLoop o.capacity v).1 with hk
  set r := (fullLoop o.capacity v).2 with hr
  have hfullsum :
      ((List.replicate k (⟨o.capacity, o.mode, o.cost_full, o.lead_time, 1⟩ : PlannedShipment)).map
        (·.qty)).sum = (k : ℚ) * o.capacity := by
    rw [List.map_replicate, List.sum_replicate]
    simp [nsmul_eq_mul]
  have hfullmem : ∀ s ∈ List.replicate k (⟨o.capacity, o.mode, o.cost_full, o.lead_time, 1⟩ : PlannedShipment),
      s.mode = o.mode ∧ s.qty ≤ o.capacity := by
    intro s hs
    rw [List.eq_of_mem_replicate hs]
    exact ⟨rfl, le_refl _⟩
  have hq : 0 < minUtil * o.capacity := by
    have : (0 : ℚ) < minUtil := by norm_num [minUtil]
    positivity
  by_cases hrem : 0 < r
  · rw [if_pos hrem] at h
    have hutil1 : ¬(1 ≤ r / o.capacity) := by
      rw [not_le, div_lt_one hC]
      exact h2
    rw [if_neg hutil1] at h
    have hpartial : ∀ (cost util : ℚ),
        ms = List.replicate k (⟨o.capacity, o.mode, o.cost_full, o.lead_time, 1⟩ : PlannedShipment) ++
             [⟨r, o.mode, cost, o.lead_time, util⟩] →
        (∀ s ∈ ms, s.mode = o.mode ∧ s.qty ≤ o.capacity) ∧
        (ms.map (·.qty)).sum ≤ v ∧
        v - (ms.map (·.qty)).sum < minUtil * o.capacity := by
      intro cost util hms
      subst hms
      refine ⟨?_, ?_, ?_⟩
      · intro s hs
        rcases List.mem_append.mp hs with hs | hs
        · exact hfullmem s hs
        · simp at hs
          subst hs
          exact ⟨rfl, le_of_lt h2⟩
      · rw [List.map_append, List.sum_append, hfullsum]
        simp only [List.map_cons, List.map_nil, List.sum_cons, List.sum_nil]
        rw [hr] at h1 ⊢
        linarith [h1]
      · rw [List.map_append, List.sum_append, hfullsum]
        simp only [List.map_cons, List.map_nil, List.sum_cons, List.sum_nil]
        rw [hr] at h1 ⊢
        have : v - ((k : ℚ) * o.capacity + (r + 0)) = 0 := by rw [hr]; linarith [h1]
        rw [hr] at this
        linarith [this, hq]
    by_cases hhalf : 1/2 ≤ r / o.capacity
    · rw [if_pos hhalf] at h
      right
      exact hpartial _ _ (Except.ok.inj h).symm
    rw [if_neg hhalf] at h
    by_cases hquarter : 1/4 ≤ r / o.capacity
    · rw [if_pos hquarter] at h
      right
      exact hpartial _ _ (Except.ok.inj h).symm
    · rw [if_neg hquarter] at h
      right
      have hms : ms = List.replicate k (⟨o.capacity, o.mode, o.cost_full, o.lead_time, 1⟩ : PlannedShipment) :=
        (Except.ok.inj h).symm
      subst hms
      refine ⟨hfullmem, ?_, ?_⟩
      · rw [hfullsum]
        linarith [h1, hrem]
      · rw [hfullsum]
        have : r / o.capacity < 1/4 := lt_of_not_le hquarter
        have hrq : r < 1/4 * o.capacity := (div_lt_iff₀ hC).mp this
        have : v - (k : ℚ) * o.capacity = r := by linarith [h1]
        rw [this]
        rw [show minUtil = (1 : ℚ)/4 by norm_num [minUtil]]
        linarith [hrq]
  · rw [if_neg hrem] at h
    right
    have hr0 : r = 0 := le_antisymm (not_lt.mp hrem) h3'
    have hms : ms = List.replicate k (⟨o.capacity, o.mode, o.cost_full, o.lead_time, 1⟩ : PlannedShipment) :=
      (Except.ok.inj h).symm
    subst hms
    refine ⟨hfullmem, ?_, ?_⟩
    · rw [hfullsum]
      linarith [h1, hr0]
    · rw [hfullsum]
      have : v - (k : ℚ) * o.capacity = 0 := by linarith [h1, hr0]
      rw [this]
      exact hq

theorem planSingleOption_isOk {v : ℚ} {o : TransportOption} (hC : 0 < o.capacity) :
    ∃ ms, planSingleOption v o = .ok ms := by
  unfold planSingleOption
  rw [if_neg (not_le.mpr hC)]
  by_cases h1 : v < minUtil * o.capacity
  · rw [if_pos h1]
    exact ⟨_, rfl⟩
  · rw [if_neg h1]
    by_cases h2 : 0 < (fullLoop o.capacity v).2
    · rw [if_pos h2]
      by_cases h3 : 1 ≤ (fullLoop o.capacity v).2 / o.capacity
      · rw [if_pos h3]
        exact ⟨_, rfl⟩
      · rw [if_neg h3]
        by_cases h4 : 1/2 ≤ (fullLoop o.capacity v).2 / o.capacity
        · rw [if_pos h4]
          exact ⟨_, rfl⟩
        · rw [if_neg h4]
          by_cases h5 : 1/4 ≤ (fullLoop o.capacity v).2 / o.capacity
          · rw [if_pos h5]
            exact ⟨_, rfl⟩
          · rw [if_neg h5]
            exact ⟨_, rfl⟩
    · rw [if_neg h2]
      exact ⟨_, rfl⟩

theorem mem_insertByMode {x o : TransportOption} :
    ∀ {l : List TransportOption}, x ∈ insertByMode o l → x = o ∨ x ∈ l := by
  intro l
  induction l with
  | nil => intro h; simp [insertByMode] at h; exact Or.inl h
  | cons y ys ih =>
    intro h
    unfold insertByMode at h
    split at h
    · rcases List.mem_cons.mp h with h | h
      · exact Or.inr (List.mem_cons.mpr (Or.inl h))
      · rcases ih h with h | h
        · exact Or.inl h
        · exact Or.inr (List.mem_cons.mpr (Or.inr h))
    · rcases List.mem_cons.mp h with h | h
      · exact Or.inl h
      · exact Or.inr h

theorem mem_sortByMode {x : TransportOption} :
    ∀ {l : List TransportOption}, x ∈ sortByMode l → x ∈ l := by
  intro l
  induction l with
  | nil => intro h; simp [sortByMode] at h
  | cons y ys ih =>
    intro h
    unfold sortByMode at h
    rcases mem_insertByMode h with h | h
    · exact h ▸ List.mem_cons_self _ _
    · exact List.mem_cons.mpr (Or.inr (ih h))

theorem firstPlan_spec {v : ℚ} :
    ∀ {l : List TransportOption}, (∀ o ∈ l, 0 < o.capacity) →
      ∃ ms, firstPlan v l = .ok ms ∧
        (ms = [] ∨ ∃ o ∈ l, planSingleOption v o = .ok ms) := by
  intro l
  induction l with
  | nil => intro _; exact ⟨[], rfl, Or.inl rfl⟩
  | cons o rest ih =>
    intro hcap
    obtain ⟨ms₀, hms₀⟩ := planSingleOption_isOk (v := v) (hcap o (List.mem_cons_self _ _))
    match hms : ms₀ with
    | [] =>
      obtain ⟨ms, hfp, hms⟩ := ih (fun o ho => hcap o (List.mem_cons.mpr (Or.inr ho)))
      refine ⟨ms, ?_, ?_⟩
      · unfold firstPlan
        rw [hms₀]
        exact hfp
      · rcases hms with h | ⟨o', ho', h⟩
        · exact Or.inl h
        · exact Or.inr ⟨o', List.mem_cons.mpr (Or.inr ho'), h⟩
    | s :: ss =>
      refine ⟨s :: ss, ?_, Or.inr ⟨o, List.mem_cons_self _ _, hms₀⟩⟩
      unfold firstPlan
      rw [hms₀]

/-- C10: for every requested volume `v > 0` and options with positive
capacities, `TransportPlanner.plan` succeeds (never raises); the total planned
quantity never exceeds `v`; and the plan is either empty (the whole volume is
deferred) or drawn from a single chosen option, with every shipment carrying
that option's mode, every shipment quantity at most its capacity, and the
unshipped remainder strictly below `MIN_UTIL = 0.25` times its capacity. -/
theorem claim_C10 (v : ℚ) (options : List TransportOption)
    (hv : 0 < v) (hcap : ∀ o ∈ options, 0 < o.capacity) :
    ∃ ms, planE v options = .ok ms ∧
      (ms.map (·.qty)).sum ≤ v ∧
      (ms = [] ∨ ∃ o ∈ options,
        (∀ s ∈ ms, s.mode = o.mode ∧ s.qty ≤ o.capacity) ∧
        v - (ms.map (·.qty)).sum < minUtil * o.capacity) := by
  have hcap' : ∀ o ∈ sortByMode options, 0 < o.capacity :=
    fun o ho => hcap o (mem_sortByMode ho)
  obtain ⟨ms, hfp, hcase⟩ := firstPlan_spec (v := v) hcap'
  refine ⟨ms, ?_, ?_, ?_⟩
  · unfold planE
    rw [if_neg (not_le.mpr hv)]
    exact hfp
  · rcases hcase with h | ⟨o, ho, h⟩
    · subst h
      simpa using le_of_lt hv
    · rcases planSingleOption_spec (hcap' o ho) hv h with h0 | ⟨_, hsum, _⟩
      · subst h0
        simpa using le_of_lt hv
      · exact hsum
  · rcases hcase with h | ⟨o, ho, h⟩
    · exact Or.inl h
    · rcases planSingleOption_spec (hcap' o ho) hv h with h0 | ⟨hmode, _, hrem⟩
      · exact Or.inl h0
      · exact Or.inr ⟨o, mem_sortByMode ho, hmode, hrem⟩

/-- C10 witness: a volume of 10 against a single option of capacity 4. -/
theorem claim_C10_witness :
    (0 : ℚ) < 10 ∧
    ∃ ms, planE 10 [⟨"r1", 1, 4, 100, 60, 35, 2⟩] = .ok ms ∧
      (ms.map (·.qty)).sum ≤ 10 ∧
      (ms = [] ∨ ∃ o ∈ [(⟨"r1", 1, 4, 100, 60, 35, 2⟩ : TransportOption)],
        (∀ s ∈ ms, s.mode = o.mode ∧ s.qty ≤ o.capacity) ∧
        10 - (ms.map (·.qty)).sum < minUtil * o.capacity) :=
  ⟨by norm_num,
   claim_C10 10 [⟨"r1", 1, 4, 100, 60, 35, 2⟩] (by norm_num)
     (by intro o ho; simp at ho; subst ho; norm_num)⟩

/-- C8: for a single transport option of capacity `C > 0` and positive tiered
costs, planning a requested volume of `2.6 × C` yields exactly two
full-capacity shipments at `cost_full` with utilization 1.0 and one shipment of
`0.6 × C` at `cost_half` with utilization bucket 0.5; planning `0.1 × C`
yields the empty plan (below the 0.25 minimum-utilization threshold), returned
as a non-failure `ok` outcome. -/
theorem claim_C8 (rid : String) (m lt : ℤ) (C cf ch cq : ℚ)
    (hC : 0 < C) (hcf : 0 < cf) (hch : 0 < ch) (hcq : 0 < cq) :
    planE (2.6 * C) [⟨rid, m, C, cf, ch, cq, lt⟩] =
      .ok [⟨C, m, cf, lt, 1⟩, ⟨C, m, cf, lt, 1⟩, ⟨0.6 * C, m, ch, lt, 0.5⟩] ∧
    planE (0.1 * C) [⟨rid, m, C, cf, ch, cq, lt⟩] = .ok [] := by
  have hsort : sortByMode [(⟨rid, m, C, cf, ch, cq, lt⟩ : TransportOption)] =
      [⟨rid, m, C, cf, ch, cq, lt⟩] := rfl
  have hfl06 : fullLoop C (0.6 * C) = (0, 0.6 * C) := by
    apply fullLoop_neg
    rintro ⟨-, hle⟩
    nlinarith
  have e1 : (2.6 : ℚ) * C - C = 1.6 * C := by ring
  have e2 : (1.6 : ℚ) * C - C = 0.6 * C := by ring
  have hfl16 : fullLoop C (1.6 * C) = (1, 0.6 * C) := by
    rw [fullLoop_pos hC (by nlinarith), e2, hfl06]
  have hfl26 : fullLoop C (2.6 * C) = (2, 0.6 * C) := by
    rw [fullLoop_pos hC (by nlinarith), e1, hfl16]
  constructor
  · unfold planE
    rw [if_neg (by nlinarith : ¬(2.6 * C ≤ 0))]
    rw [hsort]
    unfold firstPlan
    have hplan : planSingleOption (2.6 * C) ⟨rid, m, C, cf, ch, cq, lt⟩ =
        .ok [⟨C, m, cf, lt, 1⟩, ⟨C, m, cf, lt, 1⟩, ⟨0.6 * C, m, ch, lt, 0.5⟩] := by
      unfold planSingleOption
      rw [if_neg (not_le.mpr hC)]
      rw [if_neg (by rw [show minUtil = (0.25 : ℚ) from rfl]; nlinarith)]
      rw [hfl26]
      have hrem : (0 : ℚ) < 0.6 * C := by nlinarith
      rw [if_pos hrem]
      have hdiv : 0.6 * C / C = (0.6 : ℚ) := by
        field_simp
      rw [hdiv]
      rw [if_neg (by norm_num), if_pos (by norm_num)]
      norm_num [List.replicate]
    rw [hplan]
  · unfold planE
    rw [if_neg (by nlinarith : ¬(0.1 * C ≤ 0))]
    rw [hsort]
    unfold firstPlan
    have hplan : planSingleOption (0.1 * C) ⟨rid, m, C, cf, ch, cq, lt⟩ = .ok [] := by
      unfold planSingleOption
      rw [if_neg (not_le.mpr hC)]
      rw [if_pos (by rw [show minUtil = (0.25 : ℚ) from rfl]; nlinarith)]
    rw [hplan]
    rfl

/-- C8 witness: the theorem at `C = 10`, `cost_full = 100`, `cost_half = 60`,
`cost_quarter = 35`. -/
theorem claim_C8_witness :
    (0 : ℚ) < 10 ∧
    planE (2.6 * 10) [⟨"r1", 1, 10, 100, 60, 35, 2⟩] =
      .ok [⟨10, 1, 100, 2, 1⟩, ⟨10, 1, 100, 2, 1⟩, ⟨0.6 * 10, 1, 60, 2, 0.5⟩] :=
  ⟨by norm_num,
   (claim_C8 "r1" 1 2 10 100 60 35 (by norm_num) (by norm_num) (by norm_num)
     (by norm_num)).1⟩

theorem serveChild_spec (t : ℤ) (p c : String) (hcp : c ≠ p) (incoming : List (String × ℤ))
    (lt : String → ℤ) (s : SimState) (ships : List (String × Shipment)) :
    ∃ new : List (String × Shipment),
      (serveChild t p c incoming lt (s, ships)).2 = ships ++ new ∧
      (∀ q ∈ new, q.1 = c ∧ q.2.arrival_time = t + max 1 (lt c) ∧ 0 < q.2.qty) ∧
      ((s p).infinite_supply = false →
        ((serveChild t p c incoming lt (s, ships)).1 p).on_hand =
          (s p).on_hand - ((new.map (fun q => q.2.qty)).sum)) ∧
      ((s p).infinite_supply = true →
        ((serveChild t p c incoming lt (s, ships)).1 p).on_hand = (s p).on_hand) ∧
      (∀ x, ((serveChild t p c incoming lt (s, ships)).1 x).pipeline_in =
        (s x).pipeline_in ++ (if x = c then new.map (fun q => q.2) else [])) ∧
      ((serveChild t p c incoming lt (s, ships)).1 p).infinite_supply = (s p).infinite_supply := by
  simp only [serveChild]
  by_cases h1 : alistGetD (s p).backlog_children c + alistGetD incoming c ≤ 0
  · rw [if_pos h1]
    exact ⟨[], by simp, by simp, by simp, by simp, by simp, by simp⟩
  · rw [if_neg h1]
    have hpc : p ≠ c := fun h => hcp h.symm
    have hneed : 0 < alistGetD (s p).backlog_children c + alistGetD incoming c :=
      lt_of_not_le h1
    by_cases hinf : (s p).infinite_supply
    · -- infinite supply: ship the full need, on_hand untouched
      simp only [hinf, if_true]
      rw [if_pos hneed]
      refine ⟨[(c, ⟨t + max 1 (lt c),
        alistGetD (s p).backlog_children c + alistGetD incoming c⟩)], ?_, ?_, ?_, ?_, ?_, ?_⟩
      · simp
      · intro q hq
        simp at hq
        subst hq
        exact ⟨rfl, rfl, hneed⟩
      · intro hf
        exact absurd hf (by simp)
      · intro _
        have hsub : (alistGetD (s p).backlog_children c + alistGetD incoming c) -
            (alistGetD (s p).backlog_children c + alistGetD incoming c) = 0 := by ring
        rw [hsub]
        simp only [lt_irrefl, if_false]
        split
        · simp [Function.update_noteq hpc, Function.update_same]
        · simp [Function.update_noteq hpc, Function.update_same]
      · intro x
        have hsub : (alistGetD (s p).backlog_children c + alistGetD incoming c) -
            (alistGetD (s p).backlog_children c + alistGetD incoming c) = 0 := by ring
        rw [hsub]
        simp only [lt_irrefl, if_false]
        by_cases hx : x = c
        · subst hx
          split
          · simp [Function.update_noteq hcp, Function.update_same]
          · simp [Function.update_same]
        · split
          · by_cases hxp : x = p
            · subst hxp
              simp [Function.update_same, Function.update_noteq hpc, hx]
            · simp [Function.update_noteq hxp, Function.update_noteq hx, hx]
          · simp [Function.update_noteq hx, hx]
      · have hsub : (alistGetD (s p).backlog_children c + alistGetD incoming c) -
            (alistGetD (s p).backlog_children c + alistGetD incoming c) = 0 := by ring
        rw [hsub]
        simp only [lt_irrefl, if_false]
        split
        · simp [Function.update_noteq hpc, Function.update_same, hinf]
        · simp [Function.update_noteq hpc, Function.update_same, hinf]
    · have hinf' : (s p).infinite_supply = false := by simpa using hinf
      simp only [hinf', Bool.false_eq_true, if_false]
      by_cases hship :
          0 < min (s p).on_hand (alistGetD (s p).backlog_children c + alistGetD incoming c)
      · rw [if_pos hship]
        refine ⟨[(c, ⟨t + max 1 (lt c),
          min (s p).on_hand (alistGetD (s p).backlog_children c + alistGetD incoming c)⟩)],
          ?_, ?_, ?_, ?_, ?_, ?_⟩
        · simp
        · intro q hq
          simp at hq
          subst hq
          exact ⟨rfl, rfl, hship⟩
        · intro _
          split
          · simp [Function.update_same, Function.update_noteq hpc, Function.update_noteq hcp]
          · split
            · simp [Function.update_same, Function.update_noteq hpc, Function.update_noteq hcp]
            · simp [Function.update_same, Function.update_noteq hpc, Function.update_noteq hcp]
        · intro hf
          exact absurd hf (by simp)
        · intro x
          by_cases hx : x = c
          · subst hx
            split
            · simp [Function.update_same, Function.update_noteq hpc, Function.update_noteq hcp]
            · split
              · simp [Function.update_same, Function.update_noteq hpc, Function.update_noteq hcp]
              · simp [Function.update_same, Function.update_noteq hcp]
          · split
            · by_cases hxp : x = p
              · subst hxp
                simp [Function.update_same, Function.update_noteq hpc, hx]
              · simp [Function.update_noteq hxp, Function.update_noteq hx, hx]
            · split
              · by_cases hxp : x = p
                · subst hxp
                  simp [Function.update_same, Function.update_noteq hpc, hx]
                · simp [Function.update_noteq hxp, Function.update_noteq hx, hx]
              · by_cases hxp : x = p
                · subst hxp
                  simp [Function.update_same, Function.update_noteq hpc, hx]
                · simp [Function.update_noteq hxp, Function.update_noteq hx, hx]
        · split
          · simp [Function.update_same, Function.update_noteq hpc, Function.update_noteq hcp, hinf']
          · split
            · simp [Function.update_same, Function.update_noteq hpc, Function.update_noteq hcp, hinf']
            · simp [Function.update_same, Function.update_noteq hpc, Function.update_noteq hcp, hinf']
      · rw [if_neg hship]
        have hrem : 0 < alistGetD (s p).backlog_children c + alistGetD incoming c -
            min (s p).on_hand (alistGetD (s p).backlog_children c + alistGetD incoming c) := by
          have := not_lt.mp hship
          linarith
        rw [if_pos hrem]
        refine ⟨[], ?_, ?_, ?_, ?_, ?_, ?_⟩
        · simp
        · intro q hq
          simp at hq
        · intro _
          simp [Function.update_same]
        · intro _
          simp [Function.update_same]
        · intro x
          by_cases hxp : x = p
          · subst hxp
            simp [Function.update_same]
          · simp [Function.update_noteq hxp]
        · simp [Function.update_same, hinf']

theorem filter_of_forall_key {c x : String} :
    ∀ {l : List (String × Shipment)}, (∀ q ∈ l, q.1 = c) →
      l.filter (fun q => q.1 == x) = if x = c then l else [] := by
  intro l hl
  by_cases hx : x = c
  · subst hx
    rw [if_pos rfl]
    exact List.filter_eq_self.mpr (fun q hq => by simp [hl q hq])
  · rw [if_neg hx]
    exact List.filter_eq_nil_iff.mpr (fun q hq => by simp [hl q hq]; exact fun h => hx (h ▸ rfl))

theorem serveFold_spec (t : ℤ) (p : String) (incoming : List (String × ℤ)) (lt : String → ℤ) :
    ∀ (cs : List String) (s : SimState) (ships : List (String × Shipment)), p ∉ cs →
      ∃ new : List (String × Shipment),
        (cs.foldl (fun acc c => serveChild t p c incoming lt acc) (s, ships)).2 = ships ++ new ∧
        (∀ q ∈ new, q.1 ∈ cs ∧ q.2.arrival_time = t + max 1 (lt q.1) ∧ 0 < q.2.qty) ∧
        ((s p).infinite_supply = false →
          ((cs.foldl (fun acc c => serveChild t p c incoming lt acc) (s, ships)).1 p).on_hand =
            (s p).on_hand - (new.map (fun q => q.2.qty)).sum) ∧
        ((s p).infinite_supply = true →
          ((cs.foldl (fun acc c => serveChild t p c incoming lt acc) (s, ships)).1 p).on_hand =
            (s p).on_hand) ∧
        (∀ x, ((cs.foldl (fun acc c => serveChild t p c incoming lt acc) (s, ships)).1 x).pipeline_in =
          (s x).pipeline_in ++ ((new.filter (fun q => q.1 == x)).map (fun q => q.2))) ∧
        ((cs.foldl (fun acc c => serveChild t p c incoming lt acc) (s, ships)).1 p).infinite_supply =
          (s p).infinite_supply := by
  intro cs
  induction cs with
  | nil =>
    intro s ships _
    exact ⟨[], by simp, by simp, by simp, by simp, by simp, by simp⟩
  | cons c cs ih =>
    intro s ships hp
    have hcp : c ≠ p := by
      rintro rfl
      exact hp (List.mem_cons_self _ _)
    have hp' : p ∉ cs := fun h => hp (List.mem_cons.mpr (Or.inr h))
    obtain ⟨new₁, he1, hmem1, hoh1, hohinf1, hpipe1, hinf1⟩ :=
      serveChild_spec t p c hcp incoming lt s ships
    rw [List.foldl_cons]
    have heta : serveChild t p c incoming lt (s, ships) =
        ((serveChild t p c incoming lt (s, ships)).1, (serveChild t p c incoming lt (s, ships)).2) := rfl
    rw [heta]
    obtain ⟨new₂, he2, hmem2, hoh2, hohinf2, hpipe2, hinf2⟩ :=
      ih (serveChild t p c incoming lt (s, ships)).1 (serveChild t p c incoming lt (s, ships)).2 hp'
    refine ⟨new₁ ++ new₂, ?_, ?_, ?_, ?_, ?_, ?_⟩
    · rw [he2, he1, List.append_assoc]
    · intro q hq
      rcases List.mem_append.mp hq with h | h
      · obtain ⟨hq1, hq2, hq3⟩ := hmem1 q h
        exact ⟨List.mem_cons.mpr (Or.inl hq1), by rw [hq1]; exact hq2, hq3⟩
      · obtain ⟨hq1, hq2, hq3⟩ := hmem2 q h
        exact ⟨List.mem_cons.mpr (Or.inr hq1), hq2, hq3⟩
    · intro hf
      have hf1 : ((serveChild t p c incoming lt (s, ships)).1 p).infinite_supply = false :=
        hinf1.trans hf
      rw [hoh2 hf1, hoh1 hf]
      rw [List.map_append, List.sum_append]
      ring
    · intro hf
      have hf1 : ((serveChild t p c incoming lt (s, ships)).1 p).infinite_supply = true :=
        hinf1.trans hf
      rw [hohinf2 hf1, hohinf1 hf]
    · intro x
      rw [hpipe2 x, hpipe1 x]
      have hkeys : ∀ q ∈ new₁, q.1 = c := fun q hq => (hmem1 q hq).1
      rw [List.filter_append, List.map_append, filter_of_forall_key hkeys]
      by_cases hx : x = c
      · rw [if_pos hx, if_pos hx, List.append_assoc]
      · rw [if_neg hx, if_neg hx]
        simp
    · rw [hinf2, hinf1]

theorem alistSet_keys_sub {x k : String} {v : ℤ} :
    ∀ {l : List (String × ℤ)}, x ∈ (alistSet l k v).map (·.1) → x ∈ l.map (·.1) ∨ x = k := by
  intro l hx
  unfold alistSet at hx
  split at hx
  · rw [List.map_map] at hx
    obtain ⟨q, hq, hqx⟩ := List.mem_map.mp hx
    by_cases h : q.1 = k
    · simp [h] at hqx
      exact Or.inr hqx.symm
    · simp [h] at hqx
      exact Or.inl (List.mem_map.mpr ⟨q, hq, hqx⟩)
  · rw [List.map_append] at hx
    rcases List.mem_append.mp hx with h | h
    · exact Or.inl h
    · simp at h
      exact Or.inr h

theorem incoming_keys_sub {x : String} :
    ∀ (l : List (String × ℤ)) (acc : List (String × ℤ)),
      x ∈ ((l.foldl (fun acc o => alistSet acc o.1 (alistGetD acc o.1 + o.2)) acc).map (·.1)) →
      x ∈ acc.map (·.1) ∨ x ∈ l.map (·.1) := by
  intro l
  induction l with
  | nil => intro acc h; exact Or.inl h
  | cons o rest ih =>
    intro acc h
    rw [List.foldl_cons] at h
    rcases ih _ h with h | h
    · rcases alistSet_keys_sub h with h | h
      · exact Or.inl h
      · exact Or.inr (by simp [h])
    · exact Or.inr (List.mem_cons.mpr (Or.inr (by simpa using h)))

theorem processChildOrders_spec (t : ℤ) (p : String) (childKeys : List String)
    (lt : String → ℤ) (s : SimState)
    (hp : p ∉ childKeys ++ (s p).backlog_children.map (·.1) ++
          (s p).inbound_orders_queue.map (·.1)) :
    (∀ q ∈ (processChildOrders t p childKeys lt s).2,
      q.2.arrival_time = t + max 1 (lt q.1) ∧ 0 < q.2.qty) ∧
    ((s p).infinite_supply = false →
      ((processChildOrders t p childKeys lt s).1 p).on_hand =
        (s p).on_hand - (((processChildOrders t p childKeys lt s).2.map (fun q => q.2.qty)).sum)) ∧
    ((s p).infinite_supply = true →
      ((processChildOrders t p childKeys lt s).1 p).on_hand = (s p).on_hand) ∧
    (∀ x, ((processChildOrders t p childKeys lt s).1 x).pipeline_in =
      (s x).pipeline_in ++
        (((processChildOrders t p childKeys lt s).2.filter (fun q => q.1 == x)).map
          (fun q => q.2))) := by
  simp only [List.append_assoc, List.mem_append, not_or] at hp
  obtain ⟨hp1, hp2, hp3⟩ := hp
  have hincoming : p ∉ (((s p).inbound_orders_queue.foldl
      (fun acc o => alistSet acc o.1 (alistGetD acc o.1 + o.2)) []).map (·.1)) := by
    intro h
    rcases incoming_keys_sub _ [] h with h | h
    · simp at h
    · exact hp3 h
  have hpW : p ∉ (childKeys ++ (s p).backlog_children.map (·.1) ++
      (((s p).inbound_orders_queue.foldl
        (fun acc o => alistSet acc o.1 (alistGetD acc o.1 + o.2)) []).map (·.1))).dedup := by
    intro h
    rw [List.mem_dedup] at h
    rcases List.mem_append.mp h with h | h
    · rcases List.mem_append.mp h with h | h
      · exact hp1 h
      · exact hp2 h
    · exact hincoming h
  obtain ⟨new, he, hmem, hoh, hohinf, hpipe, _⟩ :=
    serveFold_spec t p
      ((s p).inbound_orders_queue.foldl
        (fun acc o => alistSet acc o.1 (alistGetD acc o.1 + o.2)) []) lt
      (childKeys ++ (s p).backlog_children.map (·.1) ++
        (((s p).inbound_orders_queue.foldl
          (fun acc o => alistSet acc o.1 (alistGetD acc o.1 + o.2)) []).map (·.1))).dedup
      (Function.update s p { s p with inbound_orders_queue := [] }) [] hpW
  have hdef : processChildOrders t p childKeys lt s =
      ((childKeys ++ (s p).backlog_children.map (·.1) ++
        (((s p).inbound_orders_queue.foldl
          (fun acc o => alistSet acc o.1 (alistGetD acc o.1 + o.2)) []).map (·.1))).dedup).foldl
        (fun acc c => serveChild t p c
          ((s p).inbound_orders_queue.foldl
            (fun acc o => alistSet acc o.1 (alistGetD acc o.1 + o.2)) []) lt acc)
        (Function.update s p { s p with inbound_orders_queue := [] }, []) := rfl
  rw [List.nil_append] at he
  have hup_p_oh : ((Function.update s p { s p with inbound_orders_queue := [] }) p).on_hand =
      (s p).on_hand := by simp [Function.update_same]
  have hup_p_inf : ((Function.update s p { s p with inbound_orders_queue := [] }) p).infinite_supply =
      (s p).infinite_supply := by simp [Function.update_same]
  have hup_pipe : ∀ x, ((Function.update s p { s p with inbound_orders_queue := [] }) x).pipeline_in =
      (s x).pipeline_in := by
    intro x
    by_cases hx : x = p
    · subst hx
      simp [Function.update_same]
    · simp [Function.update_noteq hx]
  refine ⟨?_, ?_, ?_, ?_⟩
  · intro q hq
    rw [hdef, he] at hq
    obtain ⟨_, h2, h3⟩ := hmem q hq
    exact ⟨h2, h3⟩
  · intro hf
    rw [hdef, he]
    rw [hoh (hup_p_inf.trans hf), hup_p_oh]
  · intro hf
    rw [hdef]
    rw [hohinf (hup_p_inf.trans hf), hup_p_oh]
  · intro x
    rw [hdef, he]
    rw [hpipe x, hup_pipe x]

theorem receiveLoop (t : ℤ) :
    ∀ (l : List Shipment) (a : ℤ) (k : List Shipment),
      l.foldl (fun (acc : ℤ × List Shipment) s =>
        if s.arrival_time = t then (acc.1 + s.qty, acc.2) else (acc.1, acc.2 ++ [s])) (a, k) =
      (a + ((l.filter (fun s => s.arrival_time == t)).map (·.qty)).sum,
       k ++ l.filter (fun s => !(s.arrival_time == t))) := by
  intro l
  induction l with
  | nil => intro a k; simp
  | cons sh rest ih =>
    intro a k
    by_cases h : sh.arrival_time = t
    · simp only [List.foldl_cons, if_pos h, List.filter_cons]
      rw [ih]
      simp [h, add_assoc]
    · simp only [List.foldl_cons, if_neg h, List.filter_cons]
      rw [ih]
      simp [h]

theorem receiveShipments_eq (t : ℤ) (n : NodeState) :
    receiveShipments t n =
      ({ n with
          on_hand := n.on_hand +
            ((n.pipeline_in.filter (fun s => s.arrival_time == t)).map (·.qty)).sum,
          pipeline_in := n.pipeline_in.filter (fun s => !(s.arrival_time == t)) },
       ((n.pipeline_in.filter (fun s => s.arrival_time == t)).map (·.qty)).sum) := by
  unfold receiveShipments
  rw [receiveLoop]
  simp

theorem sum_qty_filter_split (t : ℤ) :
    ∀ l : List Shipment,
      ((l.filter (fun s => s.arrival_time == t)).map (·.qty)).sum +
      ((l.filter (fun s => !(s.arrival_time == t))).map (·.qty)).sum = (l.map (·.qty)).sum := by
  intro l
  induction l with
  | nil => simp
  | cons sh rest ih =>
    by_cases h : sh.arrival_time = t
    · simp only [List.filter_cons]
      have hb : (sh.arrival_time == t) = true := by simp [h]
      rw [hb]
      simp at ih ⊢
      linarith [ih]
    · simp only [List.filter_cons]
      have hb : (sh.arrival_time == t) = false := by simp [h]
      rw [hb]
      simp at ih ⊢
      linarith [ih]

/-- C3: stock conservation in the two node operations.  One call of
`process_child_orders` at period `t` on a parent `p` that is not its own child
(i) decreases a non-infinite-supply parent's `on_hand` by exactly the total
quantity of the shipments it appends to children's pipelines, (ii) leaves an
infinite-supply parent's `on_hand` untouched, and (iii) changes every node's
pipeline exactly by appending the shipments addressed to it — no unit is
created or destroyed.  And one call of `receive_shipments(t')` increases
`on_hand` by exactly the arrived amount, which is exactly the total quantity
of the pipeline entries it removes (the entries with `arrival_time = t'`). -/
theorem claim_C3 (t : ℤ) (p : String) (childKeys : List String) (lt : String → ℤ)
    (s : SimState)
    (hp : p ∉ childKeys ++ (s p).backlog_children.map (·.1) ++
          (s p).inbound_orders_queue.map (·.1)) :
    (((s p).infinite_supply = false →
        ((processChildOrders t p childKeys lt s).1 p).on_hand =
          (s p).on_hand -
            (((processChildOrders t p childKeys lt s).2.map (fun q => q.2.qty)).sum)) ∧
     ((s p).infinite_supply = true →
        ((processChildOrders t p childKeys lt s).1 p).on_hand = (s p).on_hand) ∧
     (∀ x, ((processChildOrders t p childKeys lt s).1 x).pipeline_in =
        (s x).pipeline_in ++
          (((processChildOrders t p childKeys lt s).2.filter (fun q => q.1 == x)).map
            (fun q => q.2)))) ∧
    (∀ (n : NodeState) (t' : ℤ),
      (receiveShipments t' n).1.on_hand = n.on_hand + (receiveShipments t' n).2 ∧
      (receiveShipments t' n).2 + totalPipelineIn (receiveShipments t' n).1 =
        totalPipelineIn n ∧
      (receiveShipments t' n).1.pipeline_in =
        n.pipeline_in.filter (fun sh => !(sh.arrival_time == t')) ∧
      (receiveShipments t' n).2 =
        ((n.pipeline_in.filter (fun sh => sh.arrival_time == t')).map (·.qty)).sum) := by
  obtain ⟨_, hoh, hohinf, hpipe⟩ := processChildOrders_spec t p childKeys lt s hp
  refine ⟨⟨hoh, hohinf, hpipe⟩, ?_⟩
  intro n t'
  rw [receiveShipments_eq]
  refine ⟨rfl, ?_, rfl, rfl⟩
  unfold totalPipelineIn
  simpa using sum_qty_filter_split t' n.pipeline_in

/-- A concrete warehouse state for the witnesses: node `W` holds 10 units,
owes child `R` a backlog of 4 and has a queued incoming order of 2 from `R`. -/
def c3s : SimState := fun id =>
  if id = "W" then ⟨"warehouse", false, 10, 0, [("R", 4)], [], [("R", 2)]⟩
  else ⟨"retailer", false, 0, 0, [], [], []⟩

/-- C3 witness: at `c3s`, parent `W` ships 6 units to `R` (backlog 4 plus new
order 2), and its on-hand drops from 10 by exactly the shipped total. -/
theorem claim_C3_witness :
    ("W" ∉ (["R"] ++ (c3s "W").backlog_children.map (·.1) ++
      (c3s "W").inbound_orders_queue.map (·.1))) ∧
    ((processChildOrders 0 "W" ["R"] (fun _ => 2) c3s).1 "W").on_hand =
      (c3s "W").on_hand -
        (((processChildOrders 0 "W" ["R"] (fun _ => 2) c3s).2.map (fun q => q.2.qty)).sum) :=
  ⟨by decide,
   (claim_C3 0 "W" ["R"] (fun _ => 2) c3s (by decide)).1.1 rfl⟩

/-- C6: every pipeline entry created by `process_child_orders` at period `t`
(on a parent that is not its own child) has
`arrival_time = t + max(1, L) ≥ t + 1` for its sampled lead time `L`; in
particular `L = 0` yields arrival exactly at `t + 1`, never at `t`.  And
`receive_shipments` delivers a pipeline entry exactly at its arrival period:
a call at any other period keeps the entry in the pipeline, while the call at
the arrival period removes it and adds the total arrived quantity (the entry's
included) to `on_hand` — the shipment is never dropped. -/
theorem claim_C6 (t : ℤ) (p : String) (childKeys : List String) (lt : String → ℤ)
    (s : SimState)
    (hp : p ∉ childKeys ++ (s p).backlog_children.map (·.1) ++
          (s p).inbound_orders_queue.map (·.1)) :
    (∀ q ∈ (processChildOrders t p childKeys lt s).2,
      q.2.arrival_time = t + max 1 (lt q.1) ∧
      t + 1 ≤ q.2.arrival_time ∧
      (lt q.1 = 0 → q.2.arrival_time = t + 1)) ∧
    (∀ (n : NodeState) (t' : ℤ) (sh : Shipment), sh ∈ n.pipeline_in →
      (sh.arrival_time ≠ t' → sh ∈ (receiveShipments t' n).1.pipeline_in) ∧
      (sh.arrival_time = t' →
        sh ∉ (receiveShipments t' n).1.pipeline_in ∧
        (receiveShipments t' n).1.on_hand = n.on_hand +
          ((n.pipeline_in.filter (fun x => x.arrival_time == t')).map (·.qty)).sum)) := by
  obtain ⟨hships, _, _, _⟩ := processChildOrders_spec t p childKeys lt s hp
  constructor
  · intro q hq
    obtain ⟨harr, _⟩ := hships q hq
    have h1 : (1 : ℤ) ≤ max 1 (lt q.1) := le_max_left _ _
    refine ⟨harr, by omega, ?_⟩
    intro h0
    rw [harr, h0]
    rfl
  · intro n t' sh hsh
    rw [receiveShipments_eq]
    constructor
    · intro hne
      exact List.mem_filter.mpr ⟨hsh, by simp [hne]⟩
    · intro heq
      refine ⟨?_, rfl⟩
      intro hmem
      have := (List.mem_filter.mp hmem).2
      simp [heq] at this

/-- C6 witness: at `c3s` with lead time 2, the created shipment for `R` has
arrival time `0 + max(1, 2) = 2 ≥ 0 + 1`. -/
theorem claim_C6_witness :
    (2 : ℤ) = 0 + max 1 2 ∧ (0 : ℤ) + 1 ≤ 2 ∧ ((2 : ℤ) = 0 → (2 : ℤ) = 0 + 1) :=
  (claim_C6 0 "W" ["R"] (fun _ => 2) c3s (by decide)).1 ("R", ⟨2, 6⟩) (by decide)

theorem backlogClear_untouched :
    ∀ (l : List String) (s : SimState) (x : String), x ∉ l →
      (backlogClearPhase l s) x = s x := by
  intro l
  induction l with
  | nil => intro s x _; rfl
  | cons nid l' ih =>
    intro s x hx
    have hxn : x ≠ nid := fun h => hx (h ▸ List.mem_cons_self _ _)
    have hxl : x ∉ l' := fun h => hx (List.mem_cons.mpr (Or.inr h))
    simp only [backlogClearPhase, List.foldl_cons]
    rw [show ∀ s', List.foldl _ s' l' = backlogClearPhase l' s' from fun _ => rfl]
    rw [ih _ x hxl]
    split
    · rw [Function.update_noteq hxn]
    · rfl

theorem backlogClear_type :
    ∀ (l : List String) (s : SimState) (x : String),
      ((backlogClearPhase l s) x).node_type = (s x).node_type := by
  intro l
  induction l with
  | nil => intro s x; rfl
  | cons nid l' ih =>
    intro s x
    simp only [backlogClearPhase, List.foldl_cons]
    rw [show ∀ s', List.foldl _ s' l' = backlogClearPhase l' s' from fun _ => rfl]
    rw [ih]
    split
    · by_cases hx : x = nid
      · subst hx
        rw [Function.update_same]
      · rw [Function.update_noteq hx]
    · rfl

theorem backlogClear_cleared :
    ∀ (l : List String) (s : SimState) (r : String), r ∈ l →
      (s r).node_type = "retailer" →
      ¬(0 < ((backlogClearPhase l s) r).on_hand ∧
        0 < ((backlogClearPhase l s) r).backlog_external) := by
  intro l
  induction l with
  | nil => intro s r h; exact absurd h (List.not_mem_nil r)
  | cons nid l' ih =>
    intro s r hmem hret
    simp only [backlogClearPhase, List.foldl_cons]
    rw [show ∀ s', List.foldl _ s' l' = backlogClearPhase l' s' from fun _ => rfl]
    by_cases hrl : r ∈ l'
    · apply ih _ r hrl
      split
      · by_cases hx : r = nid
        · subst hx
          rw [Function.update_same]
          exact hret
        · rw [Function.update_noteq hx]
          exact hret
      · exact hret
    · have hr : r = nid := by
        rcases List.mem_cons.mp hmem with h | h
        · exact h
        · exact absurd h hrl
      subst hr
      rw [backlogClear_untouched l' _ r hrl]
      split
      · rw [Function.update_same]
        rintro ⟨h1, h2⟩
        simp only at h1 h2
        omega
      · rename_i hcond
        rintro ⟨h1, h2⟩
        exact hcond ⟨hret, h2, h1⟩

theorem demandPhase_untouched (dem : String → ℤ → ℤ) (t : ℤ) :
    ∀ (l : List String) (s : SimState) (x : String), x ∉ l →
      (demandPhase dem t l s) x = s x := by
  intro l
  induction l with
  | nil => intro s x _; rfl
  | cons nid l' ih =>
    intro s x hx
    have hxn : x ≠ nid := fun h => hx (h ▸ List.mem_cons_self _ _)
    have hxl : x ∉ l' := fun h => hx (List.mem_cons.mpr (Or.inr h))
    simp only [demandPhase, List.foldl_cons]
    rw [show ∀ s', List.foldl _ s' l' = demandPhase dem t l' s' from fun _ => rfl]
    rw [ih _ x hxl]
    split
    · rw [Function.update_noteq hxn]
    · rfl

/-- C9: backlog is served before new demand.  In any period's state `s` (as
left by the arrivals phase), after the backlog-clearing phase runs over the
whole topological order, at the moment a retailer `r`'s demand is realized in
the demand phase — i.e. after the demand phase has processed exactly the nodes
`pre` preceding `r` in the topological order — `r`'s state is still the one
the clearing phase left (nothing has touched it since), and `r` no longer has
both positive on-hand and positive external backlog: the clearing step already
reduced both by `min(on_hand, backlog_external)`. -/
theorem claim_C9 (dem : String → ℤ → ℤ) (t : ℤ) (topo pre post : List String)
    (r : String) (s : SimState)
    (htopo : topo = pre ++ r :: post) (hnodup : topo.Nodup)
    (hret : (s r).node_type = "retailer") :
    (demandPhase dem t pre (backlogClearPhase topo s)) r = (backlogClearPhase topo s) r ∧
    ¬(0 < ((demandPhase dem t pre (backlogClearPhase topo s)) r).on_hand ∧
      0 < ((demandPhase dem t pre (backlogClearPhase topo s)) r).backlog_external) := by
  have hrpre : r ∉ pre := by
    intro hmem
    subst htopo
    have hdisj := List.disjoint_of_nodup_append hnodup
    exact hdisj hmem (List.mem_cons_self _ _)
  have huntouched := demandPhase_untouched dem t pre (backlogClearPhase topo s) r hrpre
  refine ⟨huntouched, ?_⟩
  rw [huntouched]
  apply backlogClear_cleared topo s r ?_ hret
  subst htopo
  exact List.mem_append.mpr (Or.inr (List.mem_cons_self _ _))

/-- A retailer with stock 5 and owed backlog 3 for the C9 witness. -/
def c9s : SimState := fun _ => ⟨"retailer", false, 5, 3, [], [], []⟩

/-- C9 witness: a one-node topological order; after clearing, the retailer does
not retain both positive on-hand and positive backlog when its demand is
realized. -/
theorem claim_C9_witness :
    (demandPhase (fun _ _ => 7) 0 [] (backlogClearPhase ["A"] c9s)) "A" =
      (backlogClearPhase ["A"] c9s) "A" ∧
    ¬(0 < ((demandPhase (fun _ _ => 7) 0 [] (backlogClearPhase ["A"] c9s)) "A").on_hand ∧
      0 < ((demandPhase (fun _ _ => 7) 0 [] (backlogClearPhase ["A"] c9s)) "A").backlog_external) :=
  claim_C9 (fun _ _ => 7) 0 ["A"] [] [] "A" c9s rfl (by simp) rfl

/-! ### Claim C4: non-negativity invariant of a whole run -/

/-- The per-node non-negativity invariant: on-hand, external backlog, every
per-child backlog entry and every pipeline entry are non-negative. -/
def InvNode (n : NodeState) : Prop :=
  0 ≤ n.on_hand ∧ 0 ≤ n.backlog_external ∧
  (∀ q ∈ n.backlog_children, 0 ≤ q.2) ∧ (∀ sh ∈ n.pipeline_in, 0 ≤ sh.qty)

/-- The network-wide invariant. -/
def SimInv (s : SimState) : Prop := ∀ id, InvNode (s id)

theorem simInv_update {s : SimState} {nid : String} {v : NodeState}
    (hs : SimInv s) (hv : InvNode v) : SimInv (Function.update s nid v) := by
  intro x
  by_cases hx : x = nid
  · subst hx
    rw [Function.update_same]
    exact hv
  · rw [Function.update_noteq hx]
    exact hs x

theorem alistSet_mem {l : List (String × ℤ)} {k : String} {v : ℤ} {q : String × ℤ}
    (h : q ∈ alistSet l k v) : q = (k, v) ∨ q ∈ l := by
  unfold alistSet at h
  split at h
  · obtain ⟨q₀, hq₀, hq⟩ := List.mem_map.mp h
    by_cases hk : q₀.1 = k
    · simp [hk] at hq
      exact Or.inl hq.symm
    · simp [hk] at hq
      exact Or.inr (hq ▸ hq₀)
  · rcases List.mem_append.mp h with h | h
    · exact Or.inr h
    · simp at h
      exact Or.inl h

theorem serveChild_inv (t : ℤ) (p c : String) (incoming : List (String × ℤ))
    (lt : String → ℤ) (s : SimState) (ships : List (String × Shipment))
    (hs : SimInv s) : SimInv (serveChild t p c incoming lt (s, ships)).1 := by
  simp only [serveChild]
  by_cases h1 : alistGetD (s p).backlog_children c + alistGetD incoming c ≤ 0
  · rw [if_pos h1]
    exact hs
  · rw [if_neg h1]
    have hneed := lt_of_not_le h1
    by_cases hinf : (s p).infinite_supply
    · simp only [hinf, if_true]
      rw [if_pos hneed]
      have hsub : (alistGetD (s p).backlog_children c + alistGetD incoming c) -
          (alistGetD (s p).backlog_children c + alistGetD incoming c) = 0 := by ring
      rw [hsub]
      simp only [lt_irrefl, if_false]
      have hC : SimInv (Function.update s c
          { s c with pipeline_in := (s c).pipeline_in ++
              [⟨t + max 1 (lt c),
                alistGetD (s p).backlog_children c + alistGetD incoming c⟩] }) := by
        apply simInv_update hs
        refine ⟨(hs c).1, (hs c).2.1, (hs c).2.2.1, ?_⟩
        intro sh' h
        rcases List.mem_append.mp h with h | h
        · exact (hs c).2.2.2 sh' h
        · simp at h
          subst h
          simp only
          omega
      split
      · apply simInv_update hC
        refine ⟨(hC p).1, (hC p).2.1, ?_, (hC p).2.2.2⟩
        intro q hq
        unfold alistDel at hq
        exact (hC p).2.2.1 q (List.mem_filter.mp hq).1
      · exact hC
    · have hinf' : (s p).infinite_supply = false := by simpa using hinf
      simp only [hinf', Bool.false_eq_true, if_false]
      by_cases hship :
          0 < min (s p).on_hand (alistGetD (s p).backlog_children c + alistGetD incoming c)
      · rw [if_pos hship]
        have hS1 : SimInv (Function.update s p
            { node_type := (s p).node_type, infinite_supply := false,
              on_hand := (s p).on_hand -
                ((s p).on_hand ⊓ (alistGetD (s p).backlog_children c + alistGetD incoming c)),
              backlog_external := (s p).backlog_external,
              backlog_children := (s p).backlog_children,
              pipeline_in := (s p).pipeline_in,
              inbound_orders_queue := (s p).inbound_orders_queue }) := by
          apply simInv_update hs
          refine ⟨?_, (hs p).2.1, (hs p).2.2.1, (hs p).2.2.2⟩
          simp only
          have := (hs p).1
          omega
        set S1 := Function.update s p
            { node_type := (s p).node_type, infinite_supply := false,
              on_hand := (s p).on_hand -
                ((s p).on_hand ⊓ (alistGetD (s p).backlog_children c + alistGetD incoming c)),
              backlog_external := (s p).backlog_external,
              backlog_children := (s p).backlog_children,
              pipeline_in := (s p).pipeline_in,
              inbound_orders_queue := (s p).inbound_orders_queue }
          with hS1def
        have hS2 : SimInv (Function.update S1 c
            { S1 c with pipeline_in := (S1 c).pipeline_in ++
                [⟨t + max 1 (lt c),
                  min (s p).on_hand (alistGetD (s p).backlog_children c + alistGetD incoming c)⟩] }) := by
          apply simInv_update hS1
          refine ⟨(hS1 c).1, (hS1 c).2.1, (hS1 c).2.2.1, ?_⟩
          intro sh' h
          rcases List.mem_append.mp h with h | h
          · exact (hS1 c).2.2.2 sh' h
          · simp at h
            subst h
            simp only
            omega
        set S2 := Function.update S1 c
            { S1 c with pipeline_in := (S1 c).pipeline_in ++
                [⟨t + max 1 (lt c),
                  min (s p).on_hand (alistGetD (s p).backlog_children c + alistGetD incoming c)⟩] }
          with hS2def
        split
        · rename_i hrem
          apply simInv_update hS2
          refine ⟨(hS2 p).1, (hS2 p).2.1, ?_, (hS2 p).2.2.2⟩
          intro q hq
          rcases alistSet_mem hq with h | h
          · subst h
            simp only
            omega
          · exact (hS2 p).2.2.1 q h
        · split
          · apply simInv_update hS2
            refine ⟨(hS2 p).1, (hS2 p).2.1, ?_, (hS2 p).2.2.2⟩
            intro q hq
            unfold alistDel at hq
            exact (hS2 p).2.2.1 q (List.mem_filter.mp hq).1
          · exact hS2
      · rw [if_neg hship]
        have hrem : 0 < alistGetD (s p).backlog_children c + alistGetD incoming c -
            min (s p).on_hand (alistGetD (s p).backlog_children c + alistGetD incoming c) := by
          have := not_lt.mp hship
          linarith
        rw [if_pos hrem]
        apply simInv_update hs
        refine ⟨(hs p).1, (hs p).2.1, ?_, (hs p).2.2.2⟩
        intro q hq
        rcases alistSet_mem hq with h | h
        · subst h
          simp only
          omega
        · exact (hs p).2.2.1 q h

theorem foldl_inv {β : Type} (f : SimState → β → SimState)
    (hf : ∀ s b, SimInv s → SimInv (f s b)) :
    ∀ (l : List β) (s : SimState), SimInv s → SimInv (l.foldl f s) := by
  intro l
  induction l with
  | nil => intro s hs; exact hs
  | cons b l' ih =>
    intro s hs
    rw [List.foldl_cons]
    exact ih _ (hf s b hs)

theorem processExternalDemand_inv {n : NodeState} (h : InvNode n) (d : ℤ) :
    InvNode (processExternalDemand d n).1 := by
  obtain ⟨h1, h2, h3, h4⟩ := h
  unfold processExternalDemand
  refine ⟨?_, ?_, h3, h4⟩
  · simp only
    omega
  · simp only
    split <;> omega

theorem receiveShipments_inv {n : NodeState} (h : InvNode n) (t : ℤ) :
    InvNode (receiveShipments t n).1 := by
  obtain ⟨h1, h2, h3, h4⟩ := h
  rw [receiveShipments_eq]
  refine ⟨?_, h2, h3, ?_⟩
  · simp only
    have hsum : 0 ≤ ((n.pipeline_in.filter (fun s => s.arrival_time == t)).map (·.qty)).sum := by
      apply List.sum_nonneg
      intro x hx
      obtain ⟨sh, hsh, rfl⟩ := List.mem_map.mp hx
      exact h4 sh (List.mem_filter.mp hsh).1
    omega
  · intro sh hsh
    exact h4 sh (List.mem_filter.mp hsh).1

theorem arrivalsFold_inv (t : ℤ) :
    ∀ (topo : List String) (acc : SimState × List (String × ℤ)), SimInv acc.1 →
      SimInv (topo.foldl (fun (acc : SimState × List (String × ℤ)) nid =>
        let r := receiveShipments t (acc.1 nid)
        (Function.update acc.1 nid r.1, alistSet acc.2 nid r.2)) acc).1 := by
  intro topo
  induction topo with
  | nil => intro acc hs; exact hs
  | cons nid l' ih =>
    intro acc hs
    rw [List.foldl_cons]
    exact ih _ (simInv_update hs (receiveShipments_inv (hs nid) t))

theorem arrivalsPhase_inv (topo : List String) (t : ℤ) (s : SimState) (hs : SimInv s) :
    SimInv (arrivalsPhase topo t s).1 :=
  arrivalsFold_inv t topo (s, []) hs

theorem backlogClearPhase_inv (topo : List String) (s : SimState) (hs : SimInv s) :
    SimInv (backlogClearPhase topo s) := by
  apply foldl_inv _ _ topo s hs
  intro s nid hsi
  simp only
  split
  · rename_i hcond
    apply simInv_update hsi
    refine ⟨?_, ?_, (hsi nid).2.2.1, (hsi nid).2.2.2⟩
    · simp only
      have := (hsi nid).1
      omega
    · simp only
      have := (hsi nid).2.1
      omega
  · exact hsi

theorem demandPhase_inv (dem : String → ℤ → ℤ) (t : ℤ) (topo : List String)
    (s : SimState) (hs : SimInv s) : SimInv (demandPhase dem t topo s) := by
  apply foldl_inv _ _ topo s hs
  intro s nid hsi
  simp only
  split
  · exact simInv_update hsi (processExternalDemand_inv (hsi nid) _)
  · exact hsi

theorem addInboundOrder_inv {s : SimState} (hs : SimInv s) (p c : String) (q : ℤ) :
    SimInv (addInboundOrder p c q s) :=
  simInv_update hs ⟨(hs p).1, (hs p).2.1, (hs p).2.2.1, (hs p).2.2.2⟩

theorem serveFold_inv (t : ℤ) (p : String) (incoming : List (String × ℤ))
    (lt : String → ℤ) :
    ∀ (cs : List String) (acc : SimState × List (String × Shipment)), SimInv acc.1 →
      SimInv (cs.foldl (fun acc c => serveChild t p c incoming lt acc) acc).1 := by
  intro cs
  induction cs with
  | nil => intro acc hs; exact hs
  | cons c cs' ih =>
    intro acc hs
    rw [List.foldl_cons]
    exact ih _ (serveChild_inv t p c incoming lt acc.1 acc.2 hs)

theorem processChildOrders_inv (t : ℤ) (p : String) (childKeys : List String)
    (lt : String → ℤ) (s : SimState) (hs : SimInv s) :
    SimInv (processChildOrders t p childKeys lt s).1 := by
  simp only [processChildOrders]
  apply serveFold_inv
  exact simInv_update hs ⟨(hs p).1, (hs p).2.1, (hs p).2.2.1, (hs p).2.2.2⟩

theorem processParent_inv (cfg : SimCfg) (t : ℤ) (p : String) (items : List OrderRec)
    (s : SimState) (hs : SimInv s) : SimInv (processParent cfg t p items s) := by
  unfold processParent
  apply processChildOrders_inv
  exact foldl_inv _ (fun s it hsi => addInboundOrder_inv hsi p it.child it.qty) items s hs

theorem duePhase_inv (cfg : SimCfg) (t : ℤ) (s : SimState) (w : List OrderRec)
    (hs : SimInv s) : SimInv (duePhase cfg t s w).1 := by
  unfold duePhase
  apply foldl_inv _ (fun s p hsi => processParent_inv cfg t p _ s hsi) _ s hs

theorem stepPeriod_inv (cfg : SimCfg) (t : ℤ) (sw : SimState × List OrderRec)
    (hs : SimInv sw.1) : SimInv (stepPeriod cfg t sw).1 := by
  simp only [stepPeriod]
  exact duePhase_inv cfg t _ sw.2
    (demandPhase_inv cfg.demand t cfg.topo _
      (backlogClearPhase_inv cfg.topo _ (arrivalsPhase_inv cfg.topo t sw.1 hs)))

theorem stateAfter_inv (cfg : SimCfg) (s₀ : SimState) (hs : SimInv s₀) :
    ∀ k, SimInv (stateAfter cfg s₀ k).1 := by
  intro k
  induction k with
  | zero => exact hs
  | succ k ih => exact stepPeriod_inv cfg (k : ℤ) (stateAfter cfg s₀ k) ih

theorem assertCheck_of_inv (cfg : SimCfg) (s : SimState) (hs : SimInv s) :
    assertCheck cfg s = true := by
  unfold assertCheck
  rw [List.all_eq_true]
  intro nid _
  by_cases hinf : (s nid).infinite_supply
  · simp [hinf]
  · simp [hinf, (hs nid).1]

theorem stepPeriod_check (cfg : SimCfg) (t : ℤ) (sw : SimState × List OrderRec) :
    (stepPeriod cfg t sw).2.2.2 = assertCheck cfg (stepPeriod cfg t sw).1 := rfl

theorem runFrom_ok (cfg : SimCfg) :
    ∀ (k : ℕ) (s : SimState) (w : List OrderRec) (t : ℤ), SimInv s →
      ∃ rows, runFrom cfg (s, w) t k = .ok rows := by
  intro k
  induction k with
  | zero => intro s w t _; exact ⟨[], rfl⟩
  | succ k ih =>
    intro s w t hs
    have hinv' : SimInv (stepPeriod cfg t (s, w)).1 := stepPeriod_inv cfg t (s, w) hs
    obtain ⟨rows, hrows⟩ := ih (stepPeriod cfg t (s, w)).1 (stepPeriod cfg t (s, w)).2.1 (t + 1) hinv'
    refine ⟨(stepPeriod cfg t (s, w)).2.2.1 ++ rows, ?_⟩
    simp only [runFrom]
    rw [stepPeriod_check, assertCheck_of_inv cfg _ hinv']
    simp only [if_true]
    rw [hrows]

/-- C4: from any initial state satisfying the non-negativity invariant (in
particular any run started from non-negative initial inventories, zero
backlogs and empty pipelines), after every period `k` and at every node: a
non-infinite-supply node's on-hand is non-negative, the external backlog is
non-negative, every per-child backlog entry is non-negative, and the total
in-transit pipeline is non-negative; consequently the simulator's end-of-period
assertion never fires and every run of any horizon `T` completes with
`Except.ok`. -/
theorem claim_C4 (cfg : SimCfg) (s₀ : SimState) (hinv : SimInv s₀) :
    (∀ (k : ℕ) (id : String),
      (((stateAfter cfg s₀ k).1 id).infinite_supply = false →
        0 ≤ ((stateAfter cfg s₀ k).1 id).on_hand) ∧
      0 ≤ ((stateAfter cfg s₀ k).1 id).backlog_external ∧
      (∀ q ∈ ((stateAfter cfg s₀ k).1 id).backlog_children, 0 ≤ q.2) ∧
      0 ≤ totalPipelineIn ((stateAfter cfg s₀ k).1 id)) ∧
    (∀ T, ∃ rows, runSim cfg s₀ T = .ok rows) := by
  constructor
  · intro k id
    obtain ⟨h1, h2, h3, h4⟩ := stateAfter_inv cfg s₀ hinv k id
    refine ⟨fun _ => h1, h2, h3, ?_⟩
    apply List.sum_nonneg
    intro x hx
    obtain ⟨sh, hsh, rfl⟩ := List.mem_map.mp hx
    exact h4 sh hsh
  · intro T
    exact runFrom_ok cfg T s₀ [] 0 hinv

/-- A one-node configuration and all-retailer initial state for the C4 witness. -/
def c4s : SimState := fun _ => ⟨"retailer", false, 5, 0, [], [], []⟩

/-- The C4 witness configuration: a single node `A` with no parent. -/
def c4Cfg : SimCfg where
  allIds := ["A"]
  topo := ["A"]
  childrenOf := fun _ => []
  parentOf := fun _ => none
  policy := fun _ _ _ _ _ => 0
  demand := fun _ _ => 2
  ltOracle := fun _ _ _ => 1
  opd := 1

/-- C4 witness: the invariant holds initially, and the theorem yields both a
non-negative backlog after one period and a successful one-period run. -/
theorem claim_C4_witness :
    SimInv c4s ∧
    0 ≤ ((stateAfter c4Cfg c4s 1).1 "A").backlog_external ∧
    ∃ rows, runSim c4Cfg c4s 1 = .ok rows := by
  have hinv : SimInv c4s := by
    intro id
    refine ⟨by norm_num [c4s], by norm_num [c4s], ?_, ?_⟩
    · intro q hq
      simp [c4s] at hq
    · intro sh hsh
      simp [c4s] at hsh
  exact ⟨hinv, ((claim_C4 c4Cfg c4s hinv).1 1 "A").2.1, (claim_C4 c4Cfg c4s hinv).2 1⟩
